import Mathlib

/-!
Verification of the two probabilistic data structures of this repository:
the Bloom filter with packed bit storage of `src/task1/main.py` and the
HyperLogLog cardinality estimator together with the client-IP extraction
of `src/task2/main.py`.

The external collaborators are modelled as parameters:
the `mmh3.hash(s, seed, signed=False)` family is an arbitrary function
`hash : String → Nat → Nat`, the 64-bit truncated SHA-256 digest is an
arbitrary function `h64 : String → Nat` (with the range bound `< 2^64`
taken as a hypothesis where needed), and `ipaddress.ip_address` validity
is an arbitrary predicate `isIp : String → Bool`.  Python floats are
modelled as real numbers; Python `bytearray`s as `List Nat` (one entry
per byte); Python exceptions as `Except`.
-/

/-- Model of Python `str.strip` acting on the character list of a string:
drop leading whitespace, then (via a reverse) trailing whitespace. -/
def stripList (l : List Char) : List Char :=
  ((l.dropWhile Char.isWhitespace).reverse.dropWhile Char.isWhitespace).reverse

/-- Model of Python `s.strip()`. -/
def pyStrip (s : String) : String :=
  String.mk (stripList s.toList)

/-- A Python value passed to the password-filter API of `src/task1/main.py`:
`None`, a `str`, or any other object, which the source only ever observes
through its `str()` rendering (carried here as the payload of `other`). -/
inductive PyVal where
  | none : PyVal
  | str : String → PyVal
  | other : String → PyVal
  deriving DecidableEq, Repr

/-- State of `BloomFilter` (src/task1/main.py lines 11-19): bit count
`size`, probe count `num_hashes`, and the packed byte array `_bits`
created as `bytearray((size + 7) // 8)`, one `Nat` per byte. -/
structure BloomFilter where
  size : Nat
  num_hashes : Nat
  _bits : List Nat
  deriving DecidableEq, Repr

/-- Constructor of `BloomFilter` (lines 11-19): raises `ValueError`
(modelled as `Except.error`) unless both parameters are positive. -/
def BloomFilter.init (size num_hashes : Nat) : Except String BloomFilter :=
  if size = 0 then Except.error "size має бути додатнім цілим числом"
  else if num_hashes = 0 then Except.error "num_hashes має бути додатнім цілим числом"
  else Except.ok { size := size, num_hashes := num_hashes,
                   _bits := List.replicate ((size + 7) / 8) 0 }

/-- Model of `BloomFilter._set_bit` (line 21-22): `self._bits[idx >> 3] |= 1 << (idx & 7)`. -/
def BloomFilter._set_bit (bf : BloomFilter) (idx : Nat) : BloomFilter :=
  let b := (bf._bits.getD (idx >>> 3) 0) ||| (1 <<< (idx &&& 7))
  { bf with _bits := bf._bits.set (idx >>> 3) b }

/-- Model of `BloomFilter._get_bit` (line 24-25): `(self._bits[idx >> 3] >> (idx & 7)) & 1`. -/
def BloomFilter._get_bit (bf : BloomFilter) (idx : Nat) : Nat :=
  ((bf._bits.getD (idx >>> 3) 0) >>> (idx &&& 7)) &&& 1

/-- Model of `BloomFilter._normalize` (lines 27-36): `None` becomes the empty marker
string, a `str` is returned as is, anything else becomes `str(item)`. -/
def BloomFilter._normalize : PyVal → String
  | PyVal.none => ""
  | PyVal.str s => s
  | PyVal.other r => r

/-- Bit index probed by `add`/`contains` (lines 48 and 62):
`mmh3.hash(s, i, signed=False) % self.size`. -/
def bloomIdx (hash : String → Nat → Nat) (s : String) (i sz : Nat) : Nat :=
  hash s i % sz

/-- Model of `BloomFilter.add` (lines 38-50): rejects items whose normalized form
strips to the empty string by returning `False` with no mutation; otherwise
sets the `num_hashes` probed bits and returns `True`.  The returned pair
carries the boolean result and the (possibly) updated filter state. -/
def BloomFilter.add (hash : String → Nat → Nat) (bf : BloomFilter) (item : PyVal) :
    Bool × BloomFilter :=
  let s := BloomFilter._normalize item
  if pyStrip s = "" then (false, bf)
  else (true, (List.range bf.num_hashes).foldl
      (fun b i => b._set_bit (bloomIdx hash s i b.size)) bf)

/-- Model of `BloomFilter.contains` (lines 52-65): same invalid-input short circuit
returning `False`; otherwise `True` exactly when every probed bit is set. -/
def BloomFilter.contains (hash : String → Nat → Nat) (bf : BloomFilter) (item : PyVal) :
    Bool :=
  let s := BloomFilter._normalize item
  if pyStrip s = "" then false
  else (List.range bf.num_hashes).all
      (fun i => bf._get_bit (bloomIdx hash s i bf.size) == 1)

/-- Sequence of `add` calls, keeping only the filter state (the lifetime of
a filter in the source is a sequence of `add`/`contains` calls, and
`contains` never mutates). -/
def addMany (hash : String → Nat → Nat) (bf : BloomFilter) (items : List PyVal) :
    BloomFilter :=
  items.foldl (fun b it => (BloomFilter.add hash b it).snd) bf

/-- Status strings of `check_password_uniqueness` (lines 73-76). -/
def statusUsed : String := "вже використаний"

/-- Status string for a unique password. -/
def statusUnique : String := "унікальний"

/-- Status string for an invalid (empty/None) password. -/
def statusInvalid : String := "некоректний (порожній/None)"

/-- Python `dict` insertion `d[k] = v` on an insertion-ordered association
list: an existing key keeps its position and gets the new value, a fresh
key is appended. -/
def dictInsert (d : List (String × String)) (k v : String) : List (String × String) :=
  if d.any (fun kv => kv.fst = k) then
    d.map (fun kv => if kv.fst = k then (k, v) else kv)
  else d ++ [(k, v)]

/-- Key used in the result dict (line 82):
`"None" if p is None else (p if isinstance(p, str) else str(p))`. -/
def pyKey : PyVal → String
  | PyVal.none => "None"
  | PyVal.str s => s
  | PyVal.other r => r

/-- Invalid-input test of `check_password_uniqueness` (line 85):
`p is None or (isinstance(p, str) and p.strip() == "")`. -/
def cpuInvalid : PyVal → Bool
  | PyVal.none => true
  | PyVal.str s => pyStrip s = ""
  | PyVal.other _ => false

/-- Status assigned to one candidate by `check_password_uniqueness`
(lines 84-93) given the current filter state. -/
def cpuStatus (hash : String → Nat → Nat) (bf : BloomFilter) (p : PyVal) : String :=
  if cpuInvalid p then statusInvalid
  else if BloomFilter.contains hash bf p then statusUsed
  else statusUnique

/-- One iteration of the loop of `check_password_uniqueness` (lines 80-94):
record the status under `pyKey p` and, only when the candidate is unique,
add it to the filter (line 94). -/
def cpuStep (hash : String → Nat → Nat)
    (st : List (String × String) × BloomFilter) (p : PyVal) :
    List (String × String) × BloomFilter :=
  let s := cpuStatus hash st.snd p
  (dictInsert st.fst (pyKey p) s,
   if s = statusUnique then (BloomFilter.add hash st.snd p).snd else st.snd)

/-- Model of `check_password_uniqueness` (lines 68-96): fold of `cpuStep` over the
candidate list, starting from the empty result dict.  The returned pair is
the result dict together with the final (mutated) filter state. -/
def check_password_uniqueness (hash : String → Nat → Nat) (bloom : BloomFilter)
    (new_passwords : List PyVal) : List (String × String) × BloomFilter :=
  new_passwords.foldl (cpuStep hash) ([], bloom)

example : BloomFilter.init 16 2 =
    Except.ok { size := 16, num_hashes := 2, _bits := List.replicate 2 0 } := rfl

example :
    (BloomFilter.add (fun s i => s.length + i)
      { size := 16, num_hashes := 2, _bits := [0, 0] } (PyVal.str "ab")) =
    (true, { size := 16, num_hashes := 2, _bits := [12, 0] }) := by decide

example :
    BloomFilter.contains (fun s i => s.length + i)
      { size := 16, num_hashes := 2, _bits := [12, 0] } (PyVal.str "ab") = true := by
  decide

/-- Python `x.bit_length()` on a non-negative integer, as used by
`HyperLogLog._clz64` (src/task2/main.py line 41).  `Nat.size` is exactly
the number of binary digits, with `bit_length 0 = 0`. -/
def bit_length (x : Nat) : Nat := Nat.size x

/-- Model of `HyperLogLog._clz64` (lines 39-41): `64 - x.bit_length()`. -/
def HyperLogLog._clz64 (x : Nat) : Nat := 64 - bit_length x

/-- The piecewise bias-correction constant assigned to `self.alpha` by
`HyperLogLog.__init__` (lines 25-32), as a function of `self.m`. -/
noncomputable def alphaFor (m : Nat) : ℝ :=
  if m = 16 then 0.673
  else if m = 32 then 0.697
  else if m = 64 then 0.709
  else 0.7213 / (1 + 1.079 / (m : ℝ))

/-- State of `HyperLogLog` (src/task2/main.py lines 18-32): precision `p`,
register count `m = 1 << p`, the bias constant `alpha`, and the register
array (a `bytearray` of length `m`, one small integer per register). -/
structure HyperLogLog where
  p : Nat
  m : Nat
  alpha : ℝ
  registers : List Nat

/-- The freshly constructed `HyperLogLog` state (lines 21-32), before any
validation concerns: `m = 1 << p`, all registers zero. -/
noncomputable def HyperLogLog.fresh (p : Nat) : HyperLogLog :=
  { p := p, m := 1 <<< p, alpha := alphaFor (1 <<< p),
    registers := List.replicate (1 <<< p) 0 }

/-- Model of `HyperLogLog.__init__` (lines 18-32): raises `ValueError` (modelled as
`Except.error`) unless `4 ≤ p ≤ 18`. -/
noncomputable def HyperLogLog.init (p : Nat) : Except String HyperLogLog :=
  if 4 ≤ p ∧ p ≤ 18 then Except.ok (HyperLogLog.fresh p)
  else Except.error "p має бути цілим у діапазоні [4, 18]"

/-- Model of `HyperLogLog.add` (lines 43-54), parametrized by the external 64-bit
hash `_hash64` (truncated SHA-256): split the hash into bucket index `j`
(top `p` bits) and the 64-bit word `w = (x << p) mod 2^64`, compute the
rank `rho`, and raise register `j` to `rho` if it is smaller. -/
def HyperLogLog.add (h64 : String → Nat) (st : HyperLogLog) (item : String) :
    HyperLogLog :=
  let x := h64 item
  let j := x >>> (64 - st.p)
  let w := (x <<< st.p) % 2 ^ 64
  let rho := if w = 0 then 64 - st.p + 1 else HyperLogLog._clz64 w + 1
  if st.registers.getD j 0 < rho then { st with registers := st.registers.set j rho }
  else st

/-- Model of `HyperLogLog.count` (lines 56-74), with Python floats modelled as real
numbers: the single pass accumulating `inv_sum` and `zeros`, the raw
estimate, then the small-range (linear counting) and large-range
corrections applied in sequence.  The model is a pure function of the
state: `count` mutates nothing. -/
noncomputable def HyperLogLog.count (st : HyperLogLog) : ℝ :=
  let inv_sum : ℝ :=
    st.registers.foldl (fun (acc : ℝ) (r : Nat) => acc + (2 : ℝ) ^ (-(r : ℤ))) 0
  let zeros : Nat := st.registers.foldl (fun z r => if r = 0 then z + 1 else z) 0
  let e : ℝ := st.alpha * (st.m : ℝ) ^ 2 / inv_sum
  let e1 : ℝ :=
    if e ≤ 2.5 * (st.m : ℝ) ∧ 0 < zeros then
      (st.m : ℝ) * Real.log ((st.m : ℝ) / (zeros : ℝ))
    else e
  let e2 : ℝ :=
    if (1 / 30 : ℝ) * (2 : ℝ) ^ (64 : ℕ) < e1 then
      -((2 : ℝ) ^ (64 : ℕ)) * Real.log (1 - e1 / (2 : ℝ) ^ (64 : ℕ))
    else e1
  e2

/-- Estimation formula written from the specification text: raw estimate
`E = alpha * m^2 / (sum over all registers of 2^(-register_value))`,
replaced by the linear-counting estimate `m * ln(m / zero_register_count)`
when `E <= 2.5 * m` and at least one register is zero, and then replaced
by `-(2^64) * ln(1 - E/2^64)` when `E > (2^64)/30`. -/
noncomputable def countSpec (st : HyperLogLog) : ℝ :=
  let E : ℝ := st.alpha * (st.m : ℝ) ^ 2 /
    ((st.registers.map (fun (r : Nat) => (2 : ℝ) ^ (-(r : ℤ)))).sum)
  let zrc : Nat := st.registers.count 0
  let E1 : ℝ :=
    if E ≤ 2.5 * (st.m : ℝ) ∧ 0 < zrc then
      (st.m : ℝ) * Real.log ((st.m : ℝ) / (zrc : ℝ))
    else E
  if (2 : ℝ) ^ (64 : ℕ) / 30 < E1 then
    -((2 : ℝ) ^ (64 : ℕ)) * Real.log (1 - E1 / (2 : ℝ) ^ (64 : ℕ))
  else E1

/-- Rank written from the specification text: `rho` is `1` plus the number
of leading zero bits of the suffix `wv` viewed as a `(64 - p)`-bit value;
for `wv = 0` this is `(64 - p) + 1`. -/
def rhoSpec (p wv : Nat) : Nat := 1 + ((64 - p) - bit_length wv)

/-- A JSON field value as observed by `_extract_client_ip`: a string, or
any non-string value (the source only tests `isinstance(v, str)`). -/
inductive JVal where
  | str : String → JVal
  | nonstr : JVal
  deriving DecidableEq, Repr

/-- The two fields of a parsed log record that `_extract_client_ip`
(src/task2/main.py lines 90-108) reads; `Option.none` models an absent
key (for which `obj.get(k, "")` yields the empty string). -/
structure LogRecord where
  http_x_forwarded_for : Option JVal
  remote_addr : Option JVal
  deriving DecidableEq, Repr

/-- Model of `_validate_ip` (lines 79-87), parametrized by the external
`ipaddress.ip_address` syntax check `isIp`: strip the candidate, reject
the empty string, and return the stripped string exactly when it parses
as an IPv4 or IPv6 address. -/
def _validate_ip (isIp : String → Bool) (s : String) : Option String :=
  let t := pyStrip s
  if t = "" then Option.none
  else if isIp t then Option.some t
  else Option.none

/-- Python `s.split(",")[0]`: the characters before the first comma. -/
def firstTok (s : String) : String :=
  String.mk (s.toList.takeWhile (fun c => c ≠ ','))

/-- Model of `_extract_client_ip` (lines 90-108): try the first comma-separated
token of a present, string-valued, non-blank `http_x_forwarded_for`;
on any failure fall back to a present, string-valued, non-blank
`remote_addr`; otherwise yield nothing. -/
def _extract_client_ip (isIp : String → Bool) (obj : LogRecord) : Option String :=
  let fromXff : Option String :=
    match obj.http_x_forwarded_for with
    | Option.some (JVal.str xff) =>
        if pyStrip xff = "" then Option.none
        else _validate_ip isIp (pyStrip (firstTok xff))
    | _ => Option.none
  match fromXff with
  | Option.some ip => Option.some ip
  | Option.none =>
      match obj.remote_addr with
      | Option.some (JVal.str ra) =>
          if pyStrip ra = "" then Option.none
          else _validate_ip isIp ra
      | _ => Option.none

/-- Extraction rule written from the specification text: the contributed
client IP is the trimmed first comma-separated token of the forwarded-for
field if that field is present (as a string) and non-empty and the token
passes the validity check; otherwise it is the remote-address field value
under the same validity check; otherwise the record contributes nothing. -/
def extractSpec (isIp : String → Bool) (obj : LogRecord) : Option String :=
  let xffIp : Option String :=
    match obj.http_x_forwarded_for with
    | Option.some (JVal.str xff) =>
        if xff = "" then Option.none
        else _validate_ip isIp (pyStrip (firstTok xff))
    | _ => Option.none
  match xffIp with
  | Option.some ip => Option.some ip
  | Option.none =>
      match obj.remote_addr with
      | Option.some (JVal.str ra) => _validate_ip isIp ra
      | _ => Option.none

example :
    _extract_client_ip (fun s => s = "203.0.113.5" ∨ s = "10.0.0.2")
      { http_x_forwarded_for := Option.some (JVal.str "203.0.113.5, 10.0.0.1"),
        remote_addr := Option.some (JVal.str "10.0.0.2") } =
    Option.some "203.0.113.5" := by decide

example :
    _extract_client_ip (fun s => s = "198.51.100.7")
      { http_x_forwarded_for := Option.some (JVal.str "not-an-ip"),
        remote_addr := Option.some (JVal.str "198.51.100.7") } =
    Option.some "198.51.100.7" := by decide

/-- Well-formedness produced by the constructor: positive parameters and a
byte array of length `ceil(size/8)`. -/
def BloomFilter.WF (bf : BloomFilter) : Prop :=
  0 < bf.size ∧ 0 < bf.num_hashes ∧ bf._bits.length = (bf.size + 7) / 8

theorem init_WF {size num_hashes : Nat} {bf : BloomFilter}
    (h : BloomFilter.init size num_hashes = Except.ok bf) : bf.WF := by
  unfold BloomFilter.init at h
  by_cases h0 : size = 0
  · rw [if_pos h0] at h; cases h
  · rw [if_neg h0] at h
    by_cases h1 : num_hashes = 0
    · rw [if_pos h1] at h; cases h
    · rw [if_neg h1] at h
      cases h
      exact ⟨Nat.pos_of_ne_zero h0, Nat.pos_of_ne_zero h1, by simp⟩

theorem getD_set_self (l : List Nat) (j v : Nat) (h : j < l.length) :
    (l.set j v).getD j 0 = v := by
  rw [List.getD_eq_getElem?_getD, List.getElem?_set_self h]; rfl

theorem set_getD_eq_self (l : List Nat) (j : Nat) (h : j < l.length) :
    l.set j (l.getD j 0) = l := by
  apply List.ext_getElem?
  intro i
  rw [List.getElem?_set]
  by_cases hij : j = i
  · subst hij
    simp [h, List.getD_eq_getElem?_getD, List.getElem?_eq_getElem h]
  · simp [hij]

theorem byte_index_lt {sz idx : Nat} (h : idx < sz) :
    idx >>> 3 < (sz + 7) / 8 := by
  have h3 : idx >>> 3 = idx / 8 := by
    rw [Nat.shiftRight_eq_div_pow]
  omega

/-- Reading a packed bit is testing the corresponding bit of the byte. -/
theorem get_bit_eq_testBit (bf : BloomFilter) (idx : Nat) :
    bf._get_bit idx =
      if (bf._bits.getD (idx >>> 3) 0).testBit (idx &&& 7) then 1 else 0 := by
  unfold BloomFilter._get_bit
  generalize bf._bits.getD (idx >>> 3) 0 = b
  rw [Nat.and_one_is_mod, Nat.testBit_to_div_mod, Nat.shiftRight_eq_div_pow]
  rcases Nat.mod_two_eq_zero_or_one (b / 2 ^ (idx &&& 7)) with h | h <;> simp [h]

@[simp] theorem set_bit_size (bf : BloomFilter) (j : Nat) :
    (bf._set_bit j).size = bf.size := rfl

@[simp] theorem set_bit_num_hashes (bf : BloomFilter) (j : Nat) :
    (bf._set_bit j).num_hashes = bf.num_hashes := rfl

@[simp] theorem set_bit_length (bf : BloomFilter) (j : Nat) :
    (bf._set_bit j)._bits.length = bf._bits.length := by
  simp [BloomFilter._set_bit]

/-- Setting a bit never clears a bit: `_set_bit` only ORs into one byte. -/
theorem get_bit_set_bit_mono {bf : BloomFilter} {i : Nat} (j : Nat)
    (h : bf._get_bit i = 1) : (bf._set_bit j)._get_bit i = 1 := by
  rw [get_bit_eq_testBit] at h ⊢
  by_cases hb : (bf._bits.getD (i >>> 3) 0).testBit (i &&& 7)
  case neg => rw [if_neg hb] at h; cases h
  suffices hs : ((bf._set_bit j)._bits.getD (i >>> 3) 0).testBit (i &&& 7) = true by
    rw [if_pos hs]
  show ((bf._bits.set (j >>> 3) (bf._bits.getD (j >>> 3) 0 ||| 1 <<< (j &&& 7))).getD
      (i >>> 3) 0).testBit (i &&& 7) = true
  by_cases hij : j >>> 3 = i >>> 3
  · rw [hij]
    by_cases hlen : i >>> 3 < bf._bits.length
    · rw [List.getD_eq_getElem?_getD, List.getElem?_set_self hlen, Option.getD_some,
        Nat.testBit_or, hb, Bool.true_or]
    · rw [List.set_eq_of_length_le (Nat.le_of_not_lt hlen)]
      exact hb
  · rw [List.getD_eq_getElem?_getD, List.getElem?_set_ne hij,
      ← List.getD_eq_getElem?_getD]
    exact hb

/-- Setting a bit with an in-range byte index makes that bit read back 1. -/
theorem get_bit_set_bit_self {bf : BloomFilter} {j : Nat}
    (h : j >>> 3 < bf._bits.length) : (bf._set_bit j)._get_bit j = 1 := by
  rw [get_bit_eq_testBit]
  suffices hs : ((bf._set_bit j)._bits.getD (j >>> 3) 0).testBit (j &&& 7) = true by
    rw [if_pos hs]
  show ((bf._bits.set (j >>> 3) (bf._bits.getD (j >>> 3) 0 ||| 1 <<< (j &&& 7))).getD
      (j >>> 3) 0).testBit (j &&& 7) = true
  rw [List.getD_eq_getElem?_getD, List.getElem?_set_self h, Option.getD_some,
    Nat.testBit_or, Nat.one_shiftLeft, Nat.testBit_two_pow_self, Bool.or_true]

/-- Metadata (size, probe count, byte length) is invariant under the
bit-setting loop of `add`. -/
theorem foldl_set_bits_meta (hash : String → Nat → Nat) (s : String)
    (l : List Nat) (bf : BloomFilter) :
    (l.foldl (fun b i => b._set_bit (bloomIdx hash s i b.size)) bf).size = bf.size ∧
    (l.foldl (fun b i => b._set_bit (bloomIdx hash s i b.size)) bf).num_hashes =
      bf.num_hashes ∧
    (l.foldl (fun b i => b._set_bit (bloomIdx hash s i b.size)) bf)._bits.length =
      bf._bits.length := by
  induction l generalizing bf with
  | nil => exact ⟨rfl, rfl, rfl⟩
  | cons a t ih =>
      simp only [List.foldl_cons]
      exact ⟨(ih _).1, (ih _).2.1, by rw [(ih _).2.2]; simp⟩

theorem get_bit_foldl_mono (hash : String → Nat → Nat) (s : String)
    (l : List Nat) {bf : BloomFilter} {k : Nat} (h : bf._get_bit k = 1) :
    (l.foldl (fun b i => b._set_bit (bloomIdx hash s i b.size)) bf)._get_bit k = 1 := by
  induction l generalizing bf with
  | nil => exact h
  | cons a t ih => exact ih (get_bit_set_bit_mono _ h)

/-- After the bit-setting loop, every probed index reads back 1. -/
theorem foldl_set_bits_get (hash : String → Nat → Nat) (s : String)
    (l : List Nat) {bf : BloomFilter} (h0 : 0 < bf.size)
    (hlen : bf._bits.length = (bf.size + 7) / 8) {i : Nat} (hi : i ∈ l) :
    (l.foldl (fun b i => b._set_bit (bloomIdx hash s i b.size)) bf)._get_bit
      (bloomIdx hash s i bf.size) = 1 := by
  induction l generalizing bf with
  | nil => cases hi
  | cons a t ih =>
      simp only [List.foldl_cons]
      rcases List.mem_cons.mp hi with rfl | hmem
      · exact get_bit_foldl_mono hash s t
          (get_bit_set_bit_self (by rw [hlen]; exact byte_index_lt (Nat.mod_lt _ h0)))
      · have := @ih (bf._set_bit (bloomIdx hash s a bf.size))
          (by simpa using h0) (by simpa using hlen) hmem
        simpa using this

theorem add_meta (hash : String → Nat → Nat) (bf : BloomFilter) (item : PyVal) :
    (BloomFilter.add hash bf item).snd.size = bf.size ∧
    (BloomFilter.add hash bf item).snd.num_hashes = bf.num_hashes ∧
    (BloomFilter.add hash bf item).snd._bits.length = bf._bits.length := by
  simp only [BloomFilter.add]
  by_cases hbl : pyStrip (BloomFilter._normalize item) = ""
  · rw [if_pos hbl]
    exact ⟨rfl, rfl, rfl⟩
  · rw [if_neg hbl]
    exact foldl_set_bits_meta hash _ _ bf

theorem add_WF (hash : String → Nat → Nat) {bf : BloomFilter} (item : PyVal)
    (h : bf.WF) : (BloomFilter.add hash bf item).snd.WF := by
  obtain ⟨h1, h2, h3⟩ := h
  obtain ⟨m1, m2, m3⟩ := add_meta hash bf item
  exact ⟨by rw [m1]; exact h1, by rw [m2]; exact h2, by rw [m3, m1]; exact h3⟩

theorem get_bit_add_mono (hash : String → Nat → Nat) (bf : BloomFilter) (item : PyVal)
    {k : Nat} (h : bf._get_bit k = 1) :
    (BloomFilter.add hash bf item).snd._get_bit k = 1 := by
  simp only [BloomFilter.add]
  by_cases hbl : pyStrip (BloomFilter._normalize item) = ""
  · rw [if_pos hbl]; exact h
  · rw [if_neg hbl]; exact get_bit_foldl_mono hash _ _ h

theorem get_bit_addMany_mono (hash : String → Nat → Nat) (items : List PyVal)
    {bf : BloomFilter} {k : Nat} (h : bf._get_bit k = 1) :
    (addMany hash bf items)._get_bit k = 1 := by
  induction items generalizing bf with
  | nil => exact h
  | cons a t ih => exact ih (get_bit_add_mono hash bf a h)

theorem addMany_meta (hash : String → Nat → Nat) (items : List PyVal) (bf : BloomFilter) :
    (addMany hash bf items).size = bf.size ∧
    (addMany hash bf items).num_hashes = bf.num_hashes := by
  induction items generalizing bf with
  | nil => exact ⟨rfl, rfl⟩
  | cons a t ih =>
      refine ⟨?_, ?_⟩
      · rw [show addMany hash bf (a :: t) = addMany hash (BloomFilter.add hash bf a).snd t
          from rfl, (ih _).1, (add_meta hash bf a).1]
      · rw [show addMany hash bf (a :: t) = addMany hash (BloomFilter.add hash bf a).snd t
          from rfl, (ih _).2, (add_meta hash bf a).2.1]

theorem add_fst_iff (hash : String → Nat → Nat) (bf : BloomFilter) (item : PyVal) :
    (BloomFilter.add hash bf item).fst = true ↔
      ¬ pyStrip (BloomFilter._normalize item) = "" := by
  simp only [BloomFilter.add]
  by_cases hbl : pyStrip (BloomFilter._normalize item) = "" <;> simp [hbl]

theorem contains_add_self (hash : String → Nat → Nat) {bf : BloomFilter} (item : PyVal)
    (hwf : bf.WF) (hnb : ¬ pyStrip (BloomFilter._normalize item) = "") :
    BloomFilter.contains hash (BloomFilter.add hash bf item).snd item = true := by
  obtain ⟨h1, _, h3⟩ := hwf
  have hadd : (BloomFilter.add hash bf item).snd =
      (List.range bf.num_hashes).foldl
        (fun b i => b._set_bit (bloomIdx hash (BloomFilter._normalize item) i b.size)) bf := by
    simp only [BloomFilter.add]
    rw [if_neg hnb]
  have hm := foldl_set_bits_meta hash (BloomFilter._normalize item)
    (List.range bf.num_hashes) bf
  rw [hadd]
  simp only [BloomFilter.contains]
  rw [if_neg hnb]
  simp only [hm.1, hm.2.1]
  rw [List.all_eq_true]
  intro i hi
  simp only [beq_iff_eq]
  exact foldl_set_bits_get hash _ _ h1 h3 hi

theorem contains_mono (hash : String → Nat → Nat) {bfA bfB : BloomFilter} (item : PyVal)
    (hsz : bfB.size = bfA.size) (hnh : bfB.num_hashes = bfA.num_hashes)
    (hmono : ∀ k, bfA._get_bit k = 1 → bfB._get_bit k = 1)
    (h : BloomFilter.contains hash bfA item = true) :
    BloomFilter.contains hash bfB item = true := by
  simp only [BloomFilter.contains] at h ⊢
  by_cases hbl : pyStrip (BloomFilter._normalize item) = ""
  · rw [if_pos hbl] at h; cases h
  · rw [if_neg hbl] at h ⊢
    rw [hnh]
    rw [List.all_eq_true] at h ⊢
    intro i hi
    have hh := h i hi
    simp only [beq_iff_eq] at hh ⊢
    rw [hsz]
    exact hmono _ hh

/-- Candidates that are Python `None` or a `str` (the domain on which the
loop's invalid-input test agrees with "normalizes to empty/whitespace"). -/
def noneOrStr : PyVal → Bool
  | PyVal.other _ => false
  | _ => true

/-- Bloom-state projection of the classification loop: the filter evolves
by adding exactly the candidates classified unique, in order. -/
def cpuBloom (hash : String → Nat → Nat) (bf : BloomFilter) (ps : List PyVal) :
    BloomFilter :=
  ps.foldl (fun b p => if cpuStatus hash b p = statusUnique
    then (BloomFilter.add hash b p).snd else b) bf

theorem cpu_snd_eq (hash : String → Nat → Nat) (acc : List (String × String))
    (bf : BloomFilter) (ps : List PyVal) :
    (ps.foldl (cpuStep hash) (acc, bf)).snd = cpuBloom hash bf ps := by
  induction ps generalizing acc bf with
  | nil => rfl
  | cons a t ih => exact ih (dictInsert acc (pyKey a) (cpuStatus hash bf a)) _

theorem cpuBloom_meta (hash : String → Nat → Nat) (ps : List PyVal) (bf : BloomFilter) :
    (cpuBloom hash bf ps).size = bf.size ∧
    (cpuBloom hash bf ps).num_hashes = bf.num_hashes ∧
    (cpuBloom hash bf ps)._bits.length = bf._bits.length := by
  induction ps generalizing bf with
  | nil => exact ⟨rfl, rfl, rfl⟩
  | cons a t ih =>
      have hstep : cpuBloom hash bf (a :: t) =
          cpuBloom hash (if cpuStatus hash bf a = statusUnique
            then (BloomFilter.add hash bf a).snd else bf) t := rfl
      rw [hstep]
      by_cases hu : cpuStatus hash bf a = statusUnique
      · rw [if_pos hu]
        obtain ⟨i1, i2, i3⟩ := ih (BloomFilter.add hash bf a).snd
        obtain ⟨m1, m2, m3⟩ := add_meta hash bf a
        exact ⟨by rw [i1, m1], by rw [i2, m2], by rw [i3, m3]⟩
      · rw [if_neg hu]
        exact ih bf

theorem cpuBloom_WF (hash : String → Nat → Nat) (ps : List PyVal) {bf : BloomFilter}
    (h : bf.WF) : (cpuBloom hash bf ps).WF := by
  obtain ⟨h1, h2, h3⟩ := h
  obtain ⟨m1, m2, m3⟩ := cpuBloom_meta hash ps bf
  exact ⟨by rw [m1]; exact h1, by rw [m2]; exact h2, by rw [m3, m1]; exact h3⟩

theorem get_bit_cpuBloom_mono (hash : String → Nat → Nat) (ps : List PyVal)
    {bf : BloomFilter} {k : Nat} (h : bf._get_bit k = 1) :
    (cpuBloom hash bf ps)._get_bit k = 1 := by
  induction ps generalizing bf with
  | nil => exact h
  | cons a t ih =>
      have hstep : cpuBloom hash bf (a :: t) =
          cpuBloom hash (if cpuStatus hash bf a = statusUnique
            then (BloomFilter.add hash bf a).snd else bf) t := rfl
      rw [hstep]
      by_cases hu : cpuStatus hash bf a = statusUnique
      · rw [if_pos hu]
        exact ih (get_bit_add_mono hash bf a h)
      · rw [if_neg hu]
        exact ih h

theorem status_ne_used_invalid : statusInvalid ≠ statusUsed := by decide

theorem status_ne_unique_invalid : statusInvalid ≠ statusUnique := by decide

theorem status_ne_used_unique : statusUsed ≠ statusUnique := by decide

theorem cpuBloom_append (hash : String → Nat → Nat) (bf : BloomFilter)
    (l1 l2 : List PyVal) :
    cpuBloom hash bf (l1 ++ l2) = cpuBloom hash (cpuBloom hash bf l1) l2 := by
  unfold cpuBloom
  rw [List.foldl_append]

theorem cpuBloom_cons (hash : String → Nat → Nat) (bf : BloomFilter) (p : PyVal)
    (l : List PyVal) :
    cpuBloom hash bf (p :: l) =
      cpuBloom hash (if cpuStatus hash bf p = statusUnique
        then (BloomFilter.add hash bf p).snd else bf) l := rfl

theorem cpuStatus_trichotomy (hash : String → Nat → Nat) (bf : BloomFilter) (p : PyVal)
    (hp : noneOrStr p = true) :
    (cpuStatus hash bf p = statusInvalid ↔ pyStrip (BloomFilter._normalize p) = "") ∧
    (cpuStatus hash bf p = statusUsed ↔
      ¬ pyStrip (BloomFilter._normalize p) = "" ∧
      BloomFilter.contains hash bf p = true) ∧
    (cpuStatus hash bf p = statusUnique ↔
      ¬ pyStrip (BloomFilter._normalize p) = "" ∧
      BloomFilter.contains hash bf p = false) := by
  cases p with
  | none =>
      have hbl : pyStrip (BloomFilter._normalize PyVal.none) = "" := rfl
      refine ⟨by simp [cpuStatus, cpuInvalid, hbl], ?_, ?_⟩
      · simp [cpuStatus, cpuInvalid, hbl, status_ne_used_invalid]
      · simp [cpuStatus, cpuInvalid, hbl, status_ne_unique_invalid]
  | other r => cases hp
  | str s =>
      by_cases hbl : pyStrip s = ""
      · refine ⟨by simp [cpuStatus, cpuInvalid, hbl, BloomFilter._normalize], ?_, ?_⟩
        · simp [cpuStatus, cpuInvalid, hbl, BloomFilter._normalize,
            status_ne_used_invalid]
        · simp [cpuStatus, cpuInvalid, hbl, BloomFilter._normalize,
            status_ne_unique_invalid]
      · by_cases hc : BloomFilter.contains hash bf (PyVal.str s) = true
        · refine ⟨?_, ?_, ?_⟩
          · simp [cpuStatus, cpuInvalid, hbl, BloomFilter._normalize, hc,
              Ne.symm status_ne_used_invalid]
          · simp [cpuStatus, cpuInvalid, hbl, BloomFilter._normalize, hc]
          · simp [cpuStatus, cpuInvalid, hbl, BloomFilter._normalize, hc,
              status_ne_used_unique]
        · rw [Bool.not_eq_true] at hc
          refine ⟨?_, ?_, ?_⟩
          · simp [cpuStatus, cpuInvalid, hbl, BloomFilter._normalize, hc,
              Ne.symm status_ne_unique_invalid]
          · simp [cpuStatus, cpuInvalid, hbl, BloomFilter._normalize, hc,
              Ne.symm status_ne_used_unique]
          · simp [cpuStatus, cpuInvalid, hbl, BloomFilter._normalize, hc]

theorem cpu_later_duplicate (hash : String → Nat → Nat) {size nh : Nat}
    {bf : BloomFilter} (hinit : BloomFilter.init size nh = Except.ok bf)
    (pre : List PyVal) (p : PyVal) (mid : List PyVal) (hp : noneOrStr p = true)
    (huniq : cpuStatus hash (check_password_uniqueness hash bf pre).snd p
      = statusUnique) :
    cpuStatus hash (check_password_uniqueness hash bf (pre ++ p :: mid)).snd p
      = statusUsed := by
  have hwf := init_WF hinit
  rw [check_password_uniqueness, cpu_snd_eq] at huniq
  rw [check_password_uniqueness, cpu_snd_eq]
  have hwf1 : (cpuBloom hash bf pre).WF := cpuBloom_WF hash pre hwf
  have hninv : cpuInvalid p = false := by
    by_contra hinv
    rw [Bool.not_eq_false] at hinv
    unfold cpuStatus at huniq
    rw [if_pos hinv] at huniq
    exact status_ne_unique_invalid huniq
  have hnb : ¬ pyStrip (BloomFilter._normalize p) = "" := by
    cases p with
    | none => cases hninv
    | other r => cases hp
    | str s =>
        intro hbl
        rw [show BloomFilter._normalize (PyVal.str s) = s from rfl] at hbl
        rw [show cpuInvalid (PyVal.str s) = decide (pyStrip s = "") from rfl] at hninv
        simp [hbl] at hninv
  rw [cpuBloom_append, cpuBloom_cons, if_pos huniq]
  obtain ⟨m1, m2, _⟩ := cpuBloom_meta hash mid
    (BloomFilter.add hash (cpuBloom hash bf pre) p).snd
  have hcon2 : BloomFilter.contains hash
      (cpuBloom hash (BloomFilter.add hash (cpuBloom hash bf pre) p).snd mid) p
      = true :=
    contains_mono hash p m1 m2
      (fun k hk => get_bit_cpuBloom_mono hash mid hk)
      (contains_add_self hash p hwf1 hnb)
  unfold cpuStatus
  rw [if_neg (by rw [hninv]; exact Bool.false_ne_true), if_pos hcon2]

/-- C1: for every filter produced by the constructor and every item, once
`add(item)` has returned `true`, `contains(item)` returns `true`, and it
continues to return `true` after any number of subsequent `add` calls with
arbitrary other items (bits are never cleared). -/
theorem bloom_no_false_negatives (hash : String → Nat → Nat) (size num_hashes : Nat)
    (bf : BloomFilter) (hinit : BloomFilter.init size num_hashes = Except.ok bf)
    (item : PyVal) (hadd : (BloomFilter.add hash bf item).fst = true)
    (others : List PyVal) :
    BloomFilter.contains hash
      (addMany hash (BloomFilter.add hash bf item).snd others) item = true := by
  have hwf := init_WF hinit
  have hnb := (add_fst_iff hash bf item).mp hadd
  have h1 := contains_add_self hash item hwf hnb
  obtain ⟨m1, m2⟩ := addMany_meta hash others (BloomFilter.add hash bf item).snd
  exact contains_mono hash item m1 m2
    (fun k hk => get_bit_addMany_mono hash others hk) h1

theorem bloom_no_false_negatives_witness :
    (BloomFilter.init 16 2 =
        Except.ok { size := 16, num_hashes := 2, _bits := [0, 0] } ∧
      (BloomFilter.add (fun s i => s.length + i)
        { size := 16, num_hashes := 2, _bits := [0, 0] } (PyVal.str "ab")).fst = true) ∧
    BloomFilter.contains (fun s i => s.length + i)
      (addMany (fun s i => s.length + i)
        (BloomFilter.add (fun s i => s.length + i)
          { size := 16, num_hashes := 2, _bits := [0, 0] } (PyVal.str "ab")).snd
        [PyVal.str "xyz", PyVal.none])
      (PyVal.str "ab") = true :=
  ⟨⟨by rfl, by decide⟩,
   bloom_no_false_negatives (fun s i => s.length + i) 16 2
     { size := 16, num_hashes := 2, _bits := [0, 0] } rfl (PyVal.str "ab")
     (by decide) [PyVal.str "xyz", PyVal.none]⟩

/-- C2: for every filter, an item whose normalized form is empty or
whitespace-only makes `add` return `false` with the state (in particular
the bit array) unchanged, and makes `contains` return `false`; both are
total functions, so rejection is signalled only by the boolean result. -/
theorem bloom_invalid_input_rejection (hash : String → Nat → Nat) (bf : BloomFilter)
    (item : PyVal) (hbl : pyStrip (BloomFilter._normalize item) = "") :
    BloomFilter.add hash bf item = (false, bf) ∧
    BloomFilter.contains hash bf item = false := by
  constructor
  · simp only [BloomFilter.add]
    rw [if_pos hbl]
  · simp only [BloomFilter.contains]
    rw [if_pos hbl]

theorem bloom_invalid_input_rejection_witness :
    (pyStrip (BloomFilter._normalize PyVal.none) = "" ∧
     pyStrip (BloomFilter._normalize (PyVal.str "   ")) = "") ∧
    (BloomFilter.add (fun _ _ => 0) { size := 8, num_hashes := 1, _bits := [0] }
        PyVal.none = (false, { size := 8, num_hashes := 1, _bits := [0] }) ∧
     BloomFilter.contains (fun _ _ => 0) { size := 8, num_hashes := 1, _bits := [0] }
        PyVal.none = false) ∧
    (BloomFilter.add (fun _ _ => 0) { size := 8, num_hashes := 1, _bits := [0] }
        (PyVal.str "   ") = (false, { size := 8, num_hashes := 1, _bits := [0] }) ∧
     BloomFilter.contains (fun _ _ => 0) { size := 8, num_hashes := 1, _bits := [0] }
        (PyVal.str "   ") = false) :=
  ⟨⟨by decide, by decide⟩,
   bloom_invalid_input_rejection (fun _ _ => 0) _ PyVal.none (by decide),
   bloom_invalid_input_rejection (fun _ _ => 0) _ (PyVal.str "   ") (by decide)⟩

/-- C3 counterexample: the claim quantifies over every candidate item, but
a non-`None`, non-string candidate whose string form is whitespace-only
normalizes to empty/whitespace and is nevertheless classified unique (not
invalid) by `check_password_uniqueness`; and since `add` rejects it, an
equal later candidate is again classified unique, not duplicate. -/
theorem batch_classification_counterexample :
    pyStrip (BloomFilter._normalize (PyVal.other " ")) = "" ∧
    (check_password_uniqueness (fun _ _ => 0)
        { size := 8, num_hashes := 1, _bits := [0] } [PyVal.other " "]).fst
      = [(" ", statusUnique)] ∧
    cpuStatus (fun _ _ => 0)
      (check_password_uniqueness (fun _ _ => 0)
        { size := 8, num_hashes := 1, _bits := [0] } [PyVal.other " "]).snd
      (PyVal.other " ") = statusUnique :=
  ⟨by decide, by decide, by decide⟩

/-- C3 (amended): restricted to candidate items that are `None` or
strings, `check_password_uniqueness` classifies each item, in sequence
order, into exactly one of invalid (it normalizes to empty/whitespace),
duplicate (the filter already reports containment), or unique (the filter
does not report containment); each step records the status and adds the
item to the filter exactly when it is unique, before the next item is
processed; hence a later batch item equal to an earlier unique batch
member is classified duplicate. -/
theorem batch_classification_amended (hash : String → Nat → Nat) :
    (∀ bf p, noneOrStr p = true →
      (cpuStatus hash bf p = statusInvalid ↔
        pyStrip (BloomFilter._normalize p) = "") ∧
      (cpuStatus hash bf p = statusUsed ↔
        ¬ pyStrip (BloomFilter._normalize p) = "" ∧
        BloomFilter.contains hash bf p = true) ∧
      (cpuStatus hash bf p = statusUnique ↔
        ¬ pyStrip (BloomFilter._normalize p) = "" ∧
        BloomFilter.contains hash bf p = false)) ∧
    (∀ acc bf p, cpuStep hash (acc, bf) p =
      (dictInsert acc (pyKey p) (cpuStatus hash bf p),
       if cpuStatus hash bf p = statusUnique
       then (BloomFilter.add hash bf p).snd else bf)) ∧
    (∀ size nh bf, BloomFilter.init size nh = Except.ok bf →
      ∀ pre p mid, noneOrStr p = true →
        cpuStatus hash (check_password_uniqueness hash bf pre).snd p = statusUnique →
        cpuStatus hash (check_password_uniqueness hash bf (pre ++ p :: mid)).snd p
          = statusUsed) :=
  ⟨fun bf p hp => cpuStatus_trichotomy hash bf p hp,
   fun _ _ _ => rfl,
   fun _ _ _ hinit pre p mid hp huniq =>
     cpu_later_duplicate hash hinit pre p mid hp huniq⟩

theorem batch_classification_amended_witness :
    (noneOrStr (PyVal.str "ab") = true ∧
     BloomFilter.init 16 2 =
       Except.ok { size := 16, num_hashes := 2, _bits := [0, 0] } ∧
     cpuStatus (fun s i => s.length + i)
       (check_password_uniqueness (fun s i => s.length + i)
         { size := 16, num_hashes := 2, _bits := [0, 0] } []).snd
       (PyVal.str "ab") = statusUnique) ∧
    cpuStatus (fun s i => s.length + i)
      (check_password_uniqueness (fun s i => s.length + i)
        { size := 16, num_hashes := 2, _bits := [0, 0] }
        ([] ++ PyVal.str "ab" :: [])).snd
      (PyVal.str "ab") = statusUsed :=
  ⟨⟨by decide, by rfl, by decide⟩,
   (batch_classification_amended (fun s i => s.length + i)).2.2 16 2
     { size := 16, num_hashes := 2, _bits := [0, 0] } rfl
     [] (PyVal.str "ab") [] (by decide) (by decide)⟩

/-- C7: the set of set-bit positions of a filter never shrinks: any bit
that reads 1 still reads 1 after any sequence of `add` calls (and
`contains` is a pure read in this model, mutating nothing). -/
theorem bloom_monotonic_bits (hash : String → Nat → Nat) (bf : BloomFilter)
    (idx : Nat) (h : bf._get_bit idx = 1) (ops : List PyVal) :
    (addMany hash bf ops)._get_bit idx = 1 :=
  get_bit_addMany_mono hash ops h

theorem bloom_monotonic_bits_witness :
    ({ size := 8, num_hashes := 1, _bits := [2] } : BloomFilter)._get_bit 1 = 1 ∧
    (addMany (fun s i => s.length + i) { size := 8, num_hashes := 1, _bits := [2] }
      [PyVal.str "abc", PyVal.none])._get_bit 1 = 1 :=
  ⟨by decide,
   bloom_monotonic_bits (fun s i => s.length + i) _ 1 (by decide)
     [PyVal.str "abc", PyVal.none]⟩

/-- C9: for every filter produced by the constructor, every bit index
computed in `add`/`contains` is below `size`, and its byte index is below
the length of the backing byte array `ceil(size/8)`. -/
theorem bloom_index_safety (hash : String → Nat → Nat) (size num_hashes : Nat)
    (bf : BloomFilter) (hinit : BloomFilter.init size num_hashes = Except.ok bf)
    (s : String) (i : Nat) :
    bloomIdx hash s i bf.size < bf.size ∧
    bloomIdx hash s i bf.size >>> 3 < bf._bits.length := by
  obtain ⟨h1, _, h3⟩ := init_WF hinit
  have hlt : bloomIdx hash s i bf.size < bf.size := Nat.mod_lt _ h1
  exact ⟨hlt, by rw [h3]; exact byte_index_lt hlt⟩

theorem bloom_index_safety_witness :
    BloomFilter.init 10 3 =
      Except.ok { size := 10, num_hashes := 3, _bits := [0, 0] } ∧
    (bloomIdx (fun s i => s.length * 7 + i) "abc" 2
        ({ size := 10, num_hashes := 3, _bits := [0, 0] } : BloomFilter).size <
      ({ size := 10, num_hashes := 3, _bits := [0, 0] } : BloomFilter).size ∧
     bloomIdx (fun s i => s.length * 7 + i) "abc" 2
        ({ size := 10, num_hashes := 3, _bits := [0, 0] } : BloomFilter).size >>> 3 <
      ({ size := 10, num_hashes := 3, _bits := [0, 0] } : BloomFilter)._bits.length) :=
  ⟨by rfl,
   bloom_index_safety (fun s i => s.length * 7 + i) 10 3
     { size := 10, num_hashes := 3, _bits := [0, 0] } rfl "abc" 2⟩

/-- C10: a `None` candidate is recorded in the output mapping under the
literal four-character key "None" (not the empty marker string that
`_normalize` produces) with the invalid label, and any non-`None`,
non-string candidate is keyed by its string conversion. -/
theorem cpu_none_key :
    pyKey PyVal.none = "None" ∧
    pyKey PyVal.none ≠ BloomFilter._normalize PyVal.none ∧
    (∀ r, pyKey (PyVal.other r) = r) ∧
    (∀ (hash : String → Nat → Nat) acc bf, cpuStep hash (acc, bf) PyVal.none =
      (dictInsert acc "None" statusInvalid, bf)) := by
  refine ⟨rfl, by decide, fun r => rfl, fun hash acc bf => ?_⟩
  have hs : cpuStatus hash bf PyVal.none = statusInvalid := rfl
  simp only [cpuStep, hs]
  rw [if_neg status_ne_unique_invalid]
  exact rfl

theorem foldl_add_eq_sum (f : Nat → ℝ) (l : List Nat) (a : ℝ) :
    l.foldl (fun acc r => acc + f r) a = a + (l.map f).sum := by
  induction l generalizing a with
  | nil => simp
  | cons r t ih => simp [ih, add_assoc]

theorem foldl_count_zero (l : List Nat) (n : Nat) :
    l.foldl (fun z r => if r = 0 then z + 1 else z) n = n + l.count 0 := by
  induction l generalizing n with
  | nil => simp
  | cons r t ih =>
      by_cases h : r = 0
      · subst h
        simp only [List.foldl_cons, if_pos rfl, ih, List.count_cons]
        simp
        omega
      · simp only [List.foldl_cons, if_neg h, ih, List.count_cons]
        simp [h]

theorem shift_mod_64 (x p : Nat) (hp : p ≤ 64) :
    (x <<< p) % 2 ^ 64 = (x % 2 ^ (64 - p)) * 2 ^ p := by
  rw [Nat.shiftLeft_eq,
    show (2 : Nat) ^ 64 = 2 ^ (64 - p) * 2 ^ p by rw [← pow_add]; congr 1; omega,
    Nat.mul_mod_mul_right]

theorem rho_code_eq_spec (p wv : Nat) (hp : p ≤ 64) (hwv : wv < 2 ^ (64 - p)) :
    (if wv * 2 ^ p = 0 then 64 - p + 1
     else HyperLogLog._clz64 (wv * 2 ^ p) + 1) = rhoSpec p wv := by
  by_cases h0 : wv = 0
  · subst h0
    rw [show (0 : Nat) * 2 ^ p = 0 from Nat.zero_mul _, if_pos rfl]
    unfold rhoSpec bit_length
    rw [Nat.size_zero]
    omega
  · rw [if_neg (Nat.mul_ne_zero h0 (pow_pos (by norm_num : (0:ℕ) < 2) p).ne')]
    unfold HyperLogLog._clz64
    have hs : bit_length (wv * 2 ^ p) = bit_length wv + p := by
      rw [bit_length, ← Nat.shiftLeft_eq]
      exact Nat.size_shiftLeft h0 p
    have hb : bit_length wv ≤ 64 - p := Nat.size_le.mpr hwv
    rw [hs]
    unfold rhoSpec
    omega

theorem hll_bucket_lt {x p m : Nat} (hm : m = 2 ^ p) (hp : p ≤ 64)
    (hx : x < 2 ^ 64) : x >>> (64 - p) < m := by
  rw [Nat.shiftRight_eq_div_pow, hm]
  apply Nat.div_lt_of_lt_mul
  calc x < 2 ^ 64 := hx
  _ = 2 ^ (64 - p) * 2 ^ p := by rw [← pow_add]; congr 1; omega

/-- C4: `add` hashes the item to a 64-bit value, splits it into the top
`precision` bits as bucket index `j` and the remaining `64 - precision`
bits as suffix `w`, computes `rho = 1` plus the count of leading zero bits
of `w` as a `(64 - precision)`-bit value (so `rho = (64 - precision) + 1`
for `w = 0`), and replaces register `j` by `max(registers[j], rho)`,
leaving every other register unchanged (expressed by `List.set`). -/
theorem hll_add_spec (h64 : String → Nat) (st : HyperLogLog) (item : String)
    (hp : 4 ≤ st.p) (hp' : st.p ≤ 18) (hm : st.m = 2 ^ st.p)
    (hlen : st.registers.length = st.m) (hx : h64 item < 2 ^ 64) :
    h64 item >>> (64 - st.p) < st.m ∧
    (HyperLogLog.add h64 st item).registers =
      st.registers.set (h64 item >>> (64 - st.p))
        (max (st.registers.getD (h64 item >>> (64 - st.p)) 0)
          (rhoSpec st.p (h64 item % 2 ^ (64 - st.p)))) := by
  have hp64 : st.p ≤ 64 := by omega
  have hj : h64 item >>> (64 - st.p) < st.m := hll_bucket_lt hm hp64 hx
  refine ⟨hj, ?_⟩
  simp only [HyperLogLog.add]
  rw [shift_mod_64 (h64 item) st.p hp64,
    rho_code_eq_spec st.p _ hp64 (Nat.mod_lt _ (pow_pos (by norm_num) _))]
  by_cases h : st.registers.getD (h64 item >>> (64 - st.p)) 0 <
      rhoSpec st.p (h64 item % 2 ^ (64 - st.p))
  · rw [if_pos h, Nat.max_eq_right (Nat.le_of_lt h)]
  · rw [if_neg h, Nat.max_eq_left (Nat.le_of_not_lt h)]
    exact (set_getD_eq_self _ _ (by rw [hlen]; exact hj)).symm

theorem hll_add_spec_witness :
    (4 ≤ (HyperLogLog.fresh 4).p ∧ (HyperLogLog.fresh 4).p ≤ 18 ∧
     (HyperLogLog.fresh 4).m = 2 ^ (HyperLogLog.fresh 4).p ∧
     (HyperLogLog.fresh 4).registers.length = (HyperLogLog.fresh 4).m ∧
     (fun _ : String => 0) "a" < 2 ^ 64) ∧
    ((fun _ : String => 0) "a" >>> (64 - (HyperLogLog.fresh 4).p) <
      (HyperLogLog.fresh 4).m ∧
     (HyperLogLog.add (fun _ => 0) (HyperLogLog.fresh 4) "a").registers =
       (HyperLogLog.fresh 4).registers.set
         ((fun _ : String => 0) "a" >>> (64 - (HyperLogLog.fresh 4).p))
         (max ((HyperLogLog.fresh 4).registers.getD
             ((fun _ : String => 0) "a" >>> (64 - (HyperLogLog.fresh 4).p)) 0)
           (rhoSpec (HyperLogLog.fresh 4).p
             ((fun _ : String => 0) "a" % 2 ^ (64 - (HyperLogLog.fresh 4).p))))) :=
  ⟨⟨by decide, by decide, by decide, by decide, by decide⟩,
   hll_add_spec (fun _ => 0) (HyperLogLog.fresh 4) "a" (by decide) (by decide)
     (by decide) (by decide) (by decide)⟩

theorem hll_add_idem (h64 : String → Nat) (st : HyperLogLog) (item : String)
    (hm : st.m = 2 ^ st.p) (hlen : st.registers.length = st.m) (hp : st.p ≤ 64)
    (hx : h64 item < 2 ^ 64) :
    HyperLogLog.add h64 (HyperLogLog.add h64 st item) item =
      HyperLogLog.add h64 st item := by
  have hj : h64 item >>> (64 - st.p) < st.m := hll_bucket_lt hm hp hx
  by_cases h : st.registers.getD (h64 item >>> (64 - st.p)) 0 <
      (if (h64 item <<< st.p) % 2 ^ 64 = 0 then 64 - st.p + 1
       else HyperLogLog._clz64 ((h64 item <<< st.p) % 2 ^ 64) + 1)
  · have hfirst : HyperLogLog.add h64 st item =
        { st with registers :=
            (st.registers.set (h64 item >>> (64 - st.p))
              (if (h64 item <<< st.p) % 2 ^ 64 = 0 then 64 - st.p + 1
               else HyperLogLog._clz64 ((h64 item <<< st.p) % 2 ^ 64) + 1)) } := by
      simp only [HyperLogLog.add]
      rw [if_pos h]
    rw [hfirst]
    simp only [HyperLogLog.add]
    rw [if_neg ?hcond]
    case hcond =>
      rw [getD_set_self _ _ _ (by rw [hlen]; exact hj)]
      exact lt_irrefl _
  · have hfirst : HyperLogLog.add h64 st item = st := by
      simp only [HyperLogLog.add]
      rw [if_neg h]
    rw [hfirst]
    exact hfirst

theorem alphaFor_le (m : Nat) : alphaFor m ≤ 2.5 := by
  unfold alphaFor
  by_cases h16 : m = 16
  · rw [if_pos h16]; norm_num
  rw [if_neg h16]
  by_cases h32 : m = 32
  · rw [if_pos h32]; norm_num
  rw [if_neg h32]
  by_cases h64 : m = 64
  · rw [if_pos h64]; norm_num
  rw [if_neg h64]
  have h1 : (0:ℝ) ≤ 1.079 / (m:ℝ) := by positivity
  have h2 : (1:ℝ) ≤ 1 + 1.079 / (m:ℝ) := by linarith
  calc (0.7213:ℝ) / (1 + 1.079 / (m:ℝ)) ≤ 0.7213 := div_le_self (by norm_num) h2
  _ ≤ 2.5 := by norm_num

theorem count_all_zero (st : HyperLogLog) (hreg : st.registers = List.replicate st.m 0)
    (hm : 0 < st.m) (halpha : st.alpha ≤ 2.5) : st.count = 0 := by
  have hmne : (st.m : ℝ) ≠ 0 := Nat.cast_ne_zero.mpr hm.ne'
  simp only [HyperLogLog.count]
  rw [hreg, foldl_add_eq_sum, foldl_count_zero]
  simp only [List.map_replicate, Nat.cast_zero, neg_zero, zpow_zero, List.sum_replicate,
    nsmul_eq_mul, mul_one, List.count_replicate_self, zero_add, Nat.zero_add]
  have he : st.alpha * (st.m : ℝ) ^ 2 / (st.m : ℝ) = st.alpha * (st.m : ℝ) := by
    field_simp
    ring
  simp only [he]
  have hcond : st.alpha * (st.m : ℝ) ≤ 2.5 * (st.m : ℝ) ∧ 0 < st.m :=
    ⟨mul_le_mul_of_nonneg_right halpha (Nat.cast_nonneg _), hm⟩
  rw [if_pos hcond]
  simp only [div_self hmne, Real.log_one, mul_zero]
  rw [if_neg (not_lt.mpr (by positivity : (0:ℝ) ≤ (1 / 30 : ℝ) * (2:ℝ) ^ (64:ℕ)))]

/-- C5: `count` is a pure function of the estimator state (it mutates
nothing in this model) and computes exactly the specification's formula:
the raw estimate `alpha * m^2 / (sum of 2^(-register))`, replaced by the
linear-counting estimate when `E <= 2.5*m` and some register is zero, and
then replaced by the large-range correction when `E > 2^64/30`. -/
theorem hll_count_formula (st : HyperLogLog) : st.count = countSpec st := by
  simp only [HyperLogLog.count, countSpec]
  rw [foldl_add_eq_sum, foldl_count_zero]
  simp only [zero_add, Nat.zero_add]
  have h30 : ((1:ℝ) / 30) * (2:ℝ) ^ (64:ℕ) = (2:ℝ) ^ (64:ℕ) / 30 := by ring
  simp only [h30]

/-- C6: a freshly created estimator with precision in `[4, 18]` reports
exactly 0 before any `add`; after one item has been added, adding the
same item again leaves the register state — and therefore `count()` —
unchanged. -/
theorem hll_zero_and_one (p : Nat) (h4 : 4 ≤ p) (h18 : p ≤ 18) :
    (HyperLogLog.fresh p).count = 0 ∧
    ∀ (h64 : String → Nat) (item : String), h64 item < 2 ^ 64 →
      HyperLogLog.add h64 (HyperLogLog.add h64 (HyperLogLog.fresh p) item) item =
        HyperLogLog.add h64 (HyperLogLog.fresh p) item ∧
      (HyperLogLog.add h64 (HyperLogLog.add h64 (HyperLogLog.fresh p) item)
          item).count =
        (HyperLogLog.add h64 (HyperLogLog.fresh p) item).count := by
  constructor
  · refine count_all_zero (HyperLogLog.fresh p) rfl ?_ (alphaFor_le _)
    rw [show (HyperLogLog.fresh p).m = 1 <<< p from rfl, Nat.one_shiftLeft]
    exact pow_pos (by norm_num) p
  · intro h64 item hx
    have hidem := hll_add_idem h64 (HyperLogLog.fresh p) item
      (by rw [show (HyperLogLog.fresh p).m = 1 <<< p from rfl, Nat.one_shiftLeft,
        show (HyperLogLog.fresh p).p = p from rfl])
      (List.length_replicate _ _)
      (by rw [show (HyperLogLog.fresh p).p = p from rfl]; omega) hx
    exact ⟨hidem, by rw [hidem]⟩

theorem hll_zero_and_one_witness :
    ((4:Nat) ≤ 4 ∧ (4:Nat) ≤ 18 ∧ (fun _ : String => 0) "a" < 2 ^ 64) ∧
    ((HyperLogLog.fresh 4).count = 0 ∧
     HyperLogLog.add (fun _ => 0)
         (HyperLogLog.add (fun _ => 0) (HyperLogLog.fresh 4) "a") "a" =
       HyperLogLog.add (fun _ => 0) (HyperLogLog.fresh 4) "a" ∧
     (HyperLogLog.add (fun _ => 0)
         (HyperLogLog.add (fun _ => 0) (HyperLogLog.fresh 4) "a") "a").count =
       (HyperLogLog.add (fun _ => 0) (HyperLogLog.fresh 4) "a").count) :=
  ⟨⟨by decide, by decide, by decide⟩,
   ⟨(hll_zero_and_one 4 (by decide) (by decide)).1,
    ((hll_zero_and_one 4 (by decide) (by decide)).2 (fun _ => 0) "a" (by decide)).1,
    ((hll_zero_and_one 4 (by decide) (by decide)).2 (fun _ => 0) "a" (by decide)).2⟩⟩

theorem stripList_eq_nil_iff (l : List Char) :
    stripList l = [] ↔ ∀ c ∈ l, c.isWhitespace = true := by
  unfold stripList
  rw [List.reverse_eq_nil_iff, List.dropWhile_eq_nil_iff]
  constructor
  · intro h c hc
    rw [← List.takeWhile_append_dropWhile Char.isWhitespace l] at hc
    rcases List.mem_append.mp hc with h1 | h2
    · exact List.mem_takeWhile_imp h1
    · exact h c (List.mem_reverse.mpr h2)
  · intro h c hc
    rw [List.mem_reverse] at hc
    refine h c ?_
    rw [← List.takeWhile_append_dropWhile Char.isWhitespace l]
    exact List.mem_append.mpr (Or.inr hc)

theorem pyStrip_eq_empty_iff (s : String) :
    pyStrip s = "" ↔ ∀ c ∈ s.toList, c.isWhitespace = true := by
  unfold pyStrip
  rw [show ("" : String) = String.mk [] from rfl]
  constructor
  · intro h
    exact (stripList_eq_nil_iff _).mp (by injection h)
  · intro h
    rw [(stripList_eq_nil_iff _).mpr h]

theorem validate_blank (isIp : String → Bool) {s : String} (h : pyStrip s = "") :
    _validate_ip isIp s = Option.none := by
  simp only [_validate_ip, h]
  rfl

theorem pyStrip_firstTok_blank {s : String} (h : pyStrip s = "") :
    pyStrip (firstTok s) = "" := by
  rw [pyStrip_eq_empty_iff] at h ⊢
  intro c hc
  apply h
  have hm : c ∈ s.toList.takeWhile (fun c => c ≠ ',') := by
    simpa [firstTok] using hc
  rw [← List.takeWhile_append_dropWhile (fun c => decide (c ≠ ',')) s.toList]
  exact List.mem_append.mpr (Or.inl hm)

/-- C8: the IP contributed by a parsed record is the trimmed first
comma-separated token of the forwarded-for field when that field is
present and non-empty and the token passes the validity check; otherwise
the remote-address field value under the same validity check; otherwise
the record contributes nothing.  Stated as equality of `_extract_client_ip`
with the rule as written in the specification. -/
theorem extract_client_ip_spec (isIp : String → Bool) (obj : LogRecord) :
    _extract_client_ip isIp obj = extractSpec isIp obj := by
  obtain ⟨xf, ra⟩ := obj
  have hra : (match ra with
      | Option.some (JVal.str r) =>
          if pyStrip r = "" then Option.none else _validate_ip isIp r
      | _ => Option.none) =
      (match ra with
      | Option.some (JVal.str r) => _validate_ip isIp r
      | _ => Option.none) := by
    match ra with
    | Option.none => rfl
    | Option.some JVal.nonstr => rfl
    | Option.some (JVal.str r) =>
        show (if pyStrip r = "" then Option.none else _validate_ip isIp r)
          = _validate_ip isIp r
        by_cases hb : pyStrip r = ""
        · rw [if_pos hb, validate_blank isIp hb]
        · rw [if_neg hb]
  cases xf with
  | none =>
      simp only [_extract_client_ip, extractSpec]
      exact hra
  | some jv =>
      cases jv with
      | nonstr =>
          simp only [_extract_client_ip, extractSpec]
          exact hra
      | str xff =>
          simp only [_extract_client_ip, extractSpec]
          by_cases hb : pyStrip xff = ""
          · rw [if_pos hb]
            by_cases hxe : xff = ""
            · rw [if_pos hxe]
              exact hra
            · rw [if_neg hxe, pyStrip_firstTok_blank hb,
                validate_blank isIp (show pyStrip "" = "" from rfl)]
              exact hra
          · rw [if_neg hb]
            have hxe : ¬ xff = "" := by
              intro hx
              apply hb
              rw [hx]
              decide
            rw [if_neg hxe]
            cases hv : _validate_ip isIp (pyStrip (firstTok xff)) with
            | none => exact hra
            | some ip => rfl
